import Mathlib

/-!
# Verification of `removepii.py`

A shallow embedding of the PII-removal pipeline of `removepii.py`.
Text is modelled as `List Char`.  The Python regular expressions are
embedded as terms of a small regex language `RE` together with a
backtracking matcher `M` that returns the list of possible rests in
Python's backtracking priority order (earlier alternative first,
greedy quantifiers longest first), so that `(M r s).head?` is exactly
the match Python's `re` engine picks at a position.  `re.findall` and
`re.sub` are modelled by a left-to-right non-overlapping scan.

The NLTK named-entity chunker (`nltk.ne_chunk ∘ pos_tag ∘ word_tokenize`)
is an external black-box collaborator; its output is modelled as an
explicit parameter `chunks : List NEChunk` (the labelled subtrees with
their leaf words).  The exclusions file is modelled as an
`Option (List (List Char))` (`none` = the file cannot be read,
`some lines` = its lines); `open` raising on a missing file is modelled
by `Except`.
-/

/-! ## Character classes (ASCII fragment of Python's semantics) -/

/-- `\d` : a decimal digit (ASCII fragment). -/
def isDigitB (c : Char) : Bool := '0' ≤ c && c ≤ '9'

/-- `\s` : Python whitespace `[ \t\n\r\f\v]` (ASCII fragment). -/
def isSpacePy (c : Char) : Bool :=
  c = ' ' || c = '\t' || c = '\n' || c = '\r' || c = '\x0c' || c = '\x0b'

/-- `[A-Za-z]`. -/
def isAsciiAlphaB (c : Char) : Bool :=
  ('a' ≤ c && c ≤ 'z') || ('A' ≤ c && c ≤ 'Z')

/-- `[a-zA-Z0-9._%+-]` : the local part of the EMAIL pattern. -/
def emailLocalB (c : Char) : Bool :=
  isAsciiAlphaB c || isDigitB c || c = '.' || c = '_' || c = '%' || c = '+' || c = '-'

/-- `[a-zA-Z0-9.-]` : the domain part of the EMAIL pattern. -/
def emailDomainB (c : Char) : Bool :=
  isAsciiAlphaB c || isDigitB c || c = '.' || c = '-'

/-- `[^ \n\r\t]` : the character class of the directory pattern in
`maskDirectories` (line 119). -/
def notBreakB (c : Char) : Bool :=
  !(c = ' ' || c = '\n' || c = '\r' || c = '\t')

/-- Python `str.lower` on one character (ASCII fragment). -/
def pyLowerC (c : Char) : Char :=
  if 'A' ≤ c && c ≤ 'Z' then Char.ofNat (c.toNat + 32) else c

/-- Python `str.lower` (ASCII fragment). -/
def pyLower (s : List Char) : List Char := s.map pyLowerC

/-- Python `str.strip()` : remove leading and trailing whitespace. -/
def pyStrip (s : List Char) : List Char :=
  ((s.dropWhile isSpacePy).reverse.dropWhile isSpacePy).reverse

/-! ## A small regex language with Python match priorities

Iteration is only needed over single-character classes in the four
patterns of the source, so `starCls`/`repCls` quantify over a class.
-/

inductive RE : Type
  | eps : RE
  | cls (f : Char → Bool) : RE
  | seq (a b : RE) : RE
  | alt (a b : RE) : RE
  | opt (a : RE) : RE
  | nla (a : RE) : RE
  | starCls (f : Char → Bool) : RE
  | repCls (f : Char → Bool) (lo hi : Nat) : RE

/-- All rests after matching `r` at the head of `s`, in Python's
backtracking priority order (first element = Python's match). -/
def M : RE → List Char → List (List Char)
  | .eps, s => [s]
  | .cls _, [] => []
  | .cls f, c :: s => if f c then [s] else []
  | .seq a b, s => (M a s).flatMap (fun t => M b t)
  | .alt a b, s => M a s ++ M b s
  | .opt a, s => M a s ++ [s]
  | .nla a, s => if (M a s).isEmpty then [s] else []
  | .starCls f, s =>
      (List.range ((s.takeWhile f).length + 1)).reverse.map (fun i => s.drop i)
  | .repCls f lo hi, s =>
      let r := (s.takeWhile f).length
      if r < lo then []
      else (List.range' lo (min hi r - lo + 1)).reverse.map (fun i => s.drop i)

/-- The rest after the match Python's engine picks at this position,
`none` when the pattern does not match here. -/
def matchAt (r : RE) (s : List Char) : Option (List Char) := (M r s).head?

/-- `x+` for a single-character class `x`. -/
def plusCls (f : Char → Bool) : RE := .seq (.cls f) (.starCls f)

/-- A literal string as a regex. -/
def lit (s : String) : RE := s.data.foldr (fun c r => .seq (.cls (fun d => d = c)) r) .eps

/-- `\d{n}`. -/
def dRep (n : Nat) : RE := .repCls isDigitB n n

/-- `re.findall`, keeping the whole match (group 1 of each pattern is
the whole pattern, and line 74 keeps `match[0]`): left-to-right scan,
non-overlapping, advancing one character past a zero-width match. -/
def findallAux (r : RE) : Nat → List Char → List (List Char)
  | 0, _ => []
  | _ + 1, [] => []
  | fuel + 1, c :: s =>
      match matchAt r (c :: s) with
      | some rest =>
          let len := (c :: s).length - rest.length
          if 0 < len then (c :: s).take len :: findallAux r fuel rest
          else [] :: findallAux r fuel s
      | none => findallAux r fuel s

def findall (r : RE) (s : List Char) : List (List Char) := findallAux r s.length s

/-- `re.sub(r, fun m => g m, ·)` : left-to-right scan replacing each
non-overlapping match by `g` of the matched text. -/
def resubAux (r : RE) (g : List Char → List Char) : Nat → List Char → List Char
  | 0, s => s
  | _ + 1, [] => []
  | fuel + 1, c :: s =>
      match matchAt r (c :: s) with
      | some rest =>
          let len := (c :: s).length - rest.length
          if 0 < len then g ((c :: s).take len) ++ resubAux r g fuel rest
          else g [] ++ c :: resubAux r g fuel s
      | none => c :: resubAux r g fuel s

def resub (r : RE) (g : List Char → List Char) (s : List Char) : List Char :=
  resubAux r g s.length s

/-! ## The four patterns of the source -/

/-- `(\s|-|\.)` (phone separator). -/
def sepRE : RE :=
  .alt (.cls isSpacePy) (.alt (.cls (fun c => c = '-')) (.cls (fun c => c = '.')))

/-- `(\d{3}|\(\d{3}\))` (phone area code). -/
def areaRE : RE :=
  .alt (dRep 3)
    (.seq (.cls (fun c => c = '(')) (.seq (dRep 3) (.cls (fun c => c = ')'))))

/-- `(\s*(ext|x|ext.)\s*(\d{2,5}))` (phone extension; `.` in `ext.` is
regex any-char-but-newline). -/
def extRE : RE :=
  .seq (.starCls isSpacePy)
    (.seq (.alt (lit "ext") (.alt (.cls (fun c => c = 'x'))
        (.seq (lit "ext") (.cls (fun c => !(c = '\n'))))))
      (.seq (.starCls isSpacePy) (.repCls isDigitB 2 5)))

/-- PHONE : `((\d{3}|\(\d{3}\))?(\s|-|\.)?(\d{3})(\s|-|\.)(\d{4})(\s*(ext|x|ext.)\s*(\d{2,5}))?)`
(lines 59–62). -/
def PHONE_RE : RE :=
  .seq (.opt areaRE)
    (.seq (.opt sepRE)
      (.seq (dRep 3)
        (.seq sepRE
          (.seq (dRep 4) (.opt extRE)))))

/-- EMAIL : `([a-zA-Z0-9._%+-]+@[a-zA-Z0-9.-]+\.[a-zA-Z]{2,4})` (lines 63–65). -/
def EMAIL_RE : RE :=
  .seq (plusCls emailLocalB)
    (.seq (.cls (fun c => c = '@'))
      (.seq (plusCls emailDomainB)
        (.seq (.cls (fun c => c = '.')) (.repCls isAsciiAlphaB 2 4))))

/-- SSN : `((?!666|000|9\d{2})\d{3}-(?!00)\d{2}-(?!0{4})\d{4})` (lines 66–68). -/
def SSN_RE : RE :=
  .seq (.nla (.alt (lit "666") (.alt (lit "000")
      (.seq (.cls (fun c => c = '9')) (.seq (.cls isDigitB) (.cls isDigitB))))))
    (.seq (dRep 3)
      (.seq (.cls (fun c => c = '-'))
        (.seq (.nla (lit "00"))
          (.seq (dRep 2)
            (.seq (.cls (fun c => c = '-'))
              (.seq (.nla (lit "0000")) (dRep 4)))))))

/-- dir_pattern : `([A-Za-z]:\\[^ \n\r\t]+|/[^ \n\r\t]+)` (line 119). -/
def DIR_RE : RE :=
  .alt (.seq (.cls isAsciiAlphaB)
      (.seq (.cls (fun c => c = ':'))
        (.seq (.cls (fun c => c = '\\')) (plusCls notBreakB))))
    (.seq (.cls (fun c => c = '/')) (plusCls notBreakB))

/-! ## Path masking (lines 117–128) -/

/-- The placeholder string `"XXXXX"`. -/
def placeholder : List Char := ['X', 'X', 'X', 'X', 'X']

/-- Python `path.split('/')`. -/
def splitSlash : List Char → List (List Char)
  | [] => [[]]
  | c :: s =>
      if c = '/' then [] :: splitSlash s
      else
        match splitSlash s with
        | [] => [[c]]
        | h :: t => (c :: h) :: t

/-- Python `'/'.join(parts)`. -/
def joinSlash (parts : List (List Char)) : List Char := List.intercalate ['/'] parts

/-- `mask_directory` (lines 122–128): normalize `\` to `/`, split on `/`,
replace every part except the last with the placeholder, rejoin. -/
def mask_directory (path : List Char) : List Char :=
  let p := path.map (fun c => if c = '\\' then '/' else c)
  let parts := splitSlash p
  if 1 < parts.length then
    joinSlash (List.replicate (parts.length - 1) placeholder ++ [parts.getLast!])
  else p

/-- `maskDirectories` (lines 117–120): `re.sub(dir_pattern, mask_directory, text)`. -/
def maskDirectories (text : List Char) : List Char := resub DIR_RE mask_directory text

/-! ## Literal replacement (Python `str.replace`, used in line 97) -/

/-- Scan of `str.replace` for a non-empty pattern: replace each
leftmost non-overlapping occurrence.  The fuel is the length of the
string being scanned. -/
def replaceGo (pat rep : List Char) : Nat → List Char → List Char
  | 0, s => s
  | _ + 1, [] => []
  | fuel + 1, c :: s =>
      if pat.isPrefixOf (c :: s) then
        rep ++ replaceGo pat rep fuel (s.drop (pat.length - 1))
      else c :: replaceGo pat rep fuel s

/-- Python `s.replace(pat, rep)` (all occurrences; Python's empty-pattern
behaviour inserts `rep` at every boundary). -/
def replaceAll (s pat rep : List Char) : List Char :=
  if pat.isEmpty then rep ++ s.flatMap (fun c => c :: rep)
  else replaceGo pat rep s.length s

/-! ## The pipeline (lines 38–100) -/

/-- The error surfaced when the exclusions file cannot be read:
Python's `open` (line 45) raises `FileNotFoundError`, which propagates. -/
inductive PiiError : Type
  | resourceUnavailable : PiiError
deriving DecidableEq

/-- One labelled subtree of the black-box `nltk.ne_chunk` output:
the entity label and the words of its leaves. -/
structure NEChunk : Type where
  label : String
  words : List (List Char)
deriving DecidableEq

/-- Python `" ".join(words)`. -/
def joinSpace : List (List Char) → List Char
  | [] => []
  | [w] => w
  | w :: v :: ws => w ++ ' ' :: joinSpace (v :: ws)

/-- `" ".join(word for word, _ in subtree.leaves())` (line 49). -/
def entityOf (st : NEChunk) : List Char := joinSpace st.words

/-- `{line.strip().lower() for line in file}` (line 46). -/
def loadExclusions (lines : List (List Char)) : List (List Char) :=
  (lines.map (fun l => pyLower (pyStrip l))).dedup

/-- `getNE` (lines 38–53).  The chunker output is the parameter
`chunks`; the exclusions file is `fs` (`none` = unreadable, so `open`
raises).  An entity is kept when its label is requested and its
lowercase form is not in the exclusion set. -/
def getNE (chunks : List NEChunk) (piiNE : List String)
    (fs : Option (List (List Char))) : Except PiiError (List (List Char)) :=
  match fs with
  | none => .error .resourceUnavailable
  | some lines =>
      let exclusions := loadExclusions lines
      .ok ((((chunks.filter (fun st => st.label ∈ piiNE)).map entityOf).filter
        (fun e => pyLower e ∉ exclusions)).dedup)

/-- `getIDInfo` (lines 56–75): for each requested key of the pattern
dict (in insertion order PHONE, EMAIL, SSN) collect the full matches;
the result is a set of strings (modelled as a deduplicated list). -/
def getIDInfo (text : List Char) (types : List String) : List (List Char) :=
  let patterns : List (String × RE) :=
    [("PHONE", PHONE_RE), ("EMAIL", EMAIL_RE), ("SSN", SSN_RE)]
  ((patterns.filter (fun kp => kp.1 ∈ types)).flatMap
    (fun kp => findall kp.2 text)).dedup

/-- Python `x or d` for an optional-list argument: `None` and the empty
list are falsy, so both select the default (lines 86–87). -/
def pyOr (x : Option (List String)) (d : List String) : List String :=
  match x with
  | none => d
  | some l => if l.isEmpty then d else l

def defaultNE : List String := ["PERSON", "ORGANIZATION", "GPE", "LOCATION"]

def defaultNums : List String := ["PHONE", "EMAIL", "SSN"]

/-- `cleanString` (lines 84–100): defaults for falsy category arguments,
`piiSet = getNE(...) ∪ getIDInfo(...)` (the set's iteration order is
modelled as the list order), replace every element of the set by the
placeholder, then mask directories.  `verbose` only prints and is
omitted. -/
def cleanString (text : List Char) (chunks : List NEChunk)
    (fs : Option (List (List Char)))
    (piiNE piiNums : Option (List String) := none) : Except PiiError (List Char) :=
  match getNE chunks (pyOr piiNE defaultNE) fs with
  | .error e => .error e
  | .ok ne =>
      let piiSet := (ne ++ getIDInfo text (pyOr piiNums defaultNums)).dedup
      let cleaned := piiSet.foldl (fun acc pii => replaceAll acc pii placeholder) text
      .ok (maskDirectories cleaned)

/-- The characters of a string literal. -/
def sOf (s : String) : List Char := s.data

/-- A syntactic criterion on patterns: every match consumes at least one
character (used to show PII match strings are never empty). -/
def strictB : RE → Bool
  | .eps => false
  | .cls _ => true
  | .seq a b => strictB a || strictB b
  | .alt a b => strictB a && strictB b
  | .opt _ => false
  | .nla _ => false
  | .starCls _ => false
  | .repCls _ lo _ => decide (0 < lo)

/-- A boundary list: empty, or starting with a whitespace break. -/
def breaksHere (w : List Char) : Prop :=
  w = [] ∨ ∃ c w', w = c :: w' ∧ notBreakB c = false

/-- The replacement step of `cleanString` (lines 95–97), iterating the
PII set in a given order: replace all occurrences of each element with
the placeholder. -/
def replacePII (text : List Char) (piiList : List (List Char)) : List Char :=
  piiList.foldl (fun acc pii => replaceAll acc pii placeholder) text

/-- `q` never occurs overlapping a proper tail of an occurrence of `p`:
at every offset `0 < i < |p|` the strings disagree on their overlap. -/
def noClash (p q : List Char) : Prop :=
  ∀ i, i < p.length → 0 < i →
    (p.drop i).isPrefixOf q = false ∧ q.isPrefixOf (p.drop i) = false

instance (p q : List Char) : Decidable (noClash p q) :=
  decidable_of_iff
    (∀ i ∈ List.range p.length, 0 < i →
      (p.drop i).isPrefixOf q = false ∧ q.isPrefixOf (p.drop i) = false)
    (by
      constructor
      · intro h i hi hpos
        exact h i (List.mem_range.mpr hi) hpos
      · intro h i hi hpos
        exact h i (List.mem_range.mp hi) hpos)

/-- Python `p in s` for strings: `p` occurs as a contiguous substring. -/
def occursIn : List Char → List Char → Bool
  | p, [] => p.isEmpty
  | p, c :: s' => p.isPrefixOf (c :: s') || occursIn p s'

instance {ε α : Type} [DecidableEq ε] [DecidableEq α] : DecidableEq (Except ε α)
  | .error a, .error b =>
      if h : a = b then .isTrue (by rw [h]) else .isFalse (by intro hc; cases hc; exact h rfl)
  | .error _, .ok _ => .isFalse (by intro hc; cases hc)
  | .ok _, .error _ => .isFalse (by intro hc; cases hc)
  | .ok a, .ok b =>
      if h : a = b then .isTrue (by rw [h]) else .isFalse (by intro hc; cases hc; exact h rfl)

/-! ## Theorems -/

/-- C9: passing an empty list for `piiNE` or `piiNums` behaves exactly like
passing `None`: the empty list is falsy, so `piiNE or [...]` (lines 86–87)
selects the defaults `["PERSON", "ORGANIZATION", "GPE", "LOCATION"]` and
`["PHONE", "EMAIL", "SSN"]`; hence an empty list cannot request zero
categories. -/
theorem claim_C9_empty_category_list_uses_defaults
    (text : List Char) (chunks : List NEChunk) (fs : Option (List (List Char)))
    (ne nums : Option (List String)) :
    cleanString text chunks fs (some []) nums = cleanString text chunks fs none nums
    ∧ cleanString text chunks fs ne (some []) = cleanString text chunks fs ne none
    ∧ cleanString text chunks fs none nums = cleanString text chunks fs (some defaultNE) nums
    ∧ cleanString text chunks fs ne none = cleanString text chunks fs ne (some defaultNums)
    ∧ pyOr (some []) defaultNE = defaultNE ∧ pyOr none defaultNE = defaultNE
    ∧ pyOr (some []) defaultNums = defaultNums ∧ pyOr none defaultNums = defaultNums :=
  ⟨rfl, rfl, rfl, rfl, rfl, rfl, rfl, rfl⟩

/-- C7: when the exclusion-list resource is absent (`fs = none`, i.e. the
`open` of line 45 raises), `getNE` and hence `cleanString` surface the
error; the missing resource is never treated as an empty exclusion list. -/
theorem claim_C7_missing_exclusions_is_an_error
    (text : List Char) (chunks : List NEChunk) (piiNE : List String)
    (ne nums : Option (List String)) :
    getNE chunks piiNE none = .error .resourceUnavailable
    ∧ cleanString text chunks none ne nums = .error .resourceUnavailable
    ∧ ∀ r, getNE chunks piiNE none ≠ .ok r :=
  ⟨rfl, rfl, fun _ h => by cases h⟩

/-- C2 as stated is false: on `"Report saved to /home/alice/reports/q1.txt"`
the path masker does not produce `"Report saved to XXXXX/XXXXX/q1.txt"`
(splitting `/home/alice/reports/q1.txt` on `/` yields five segments, of
which four are masked — including the empty segment before the leading
slash). -/
theorem counterexample_C2_path_masking_example :
    maskDirectories (sOf "Report saved to /home/alice/reports/q1.txt")
      ≠ sOf "Report saved to XXXXX/XXXXX/q1.txt" := by decide

/-- C2 (amended): the path-masking pass on
`"Report saved to /home/alice/reports/q1.txt"` produces
`"Report saved to XXXXX/XXXXX/XXXXX/XXXXX/q1.txt"`; in general
`mask_directory` normalizes backslashes to forward slashes, splits the
matched path on `/`, replaces every segment except the last (including
the empty leading segment of an absolute path) with `XXXXX`, and rejoins
with `/`. -/
theorem claim_C2_path_masking :
    maskDirectories (sOf "Report saved to /home/alice/reports/q1.txt")
      = sOf "Report saved to XXXXX/XXXXX/XXXXX/XXXXX/q1.txt"
    ∧ ∀ (path : List Char) (parts : List (List Char)),
        parts = splitSlash (path.map (fun c => if c = '\\' then '/' else c)) →
        1 < parts.length →
        mask_directory path
          = joinSlash (List.replicate (parts.length - 1) placeholder ++ [parts.getLast!]) := by
  refine ⟨by decide, ?_⟩
  intro path parts hparts hlen
  rw [mask_directory, ← hparts, if_pos hlen]

/-- Witness for C2: the hypotheses of the general part are satisfiable,
at the path `/a/b`. -/
theorem claim_C2_path_masking_witness :
    mask_directory (sOf "/a/b")
      = joinSlash (List.replicate
          ((splitSlash ((sOf "/a/b").map (fun c => if c = '\\' then '/' else c))).length - 1)
          placeholder
          ++ [(splitSlash ((sOf "/a/b").map (fun c => if c = '\\' then '/' else c))).getLast!]) :=
  claim_C2_path_masking.2 (sOf "/a/b") _ rfl (by decide)

/-- C3 as stated is false: the PHONE pattern does not match
`"1234567890"` — the separator between the exchange and the line number
(`(\s|-|\.)`, line 60) is mandatory, and a ten-digit string contains
none. -/
theorem counterexample_C3_bare_ten_digits_not_matched :
    getIDInfo (sOf "1234567890") ["PHONE"] = [] ∧ findall PHONE_RE (sOf "1234567890") = [] := by
  decide

/-- C3 (amended): the PHONE matcher matches `"(123) 456-7890"`,
`"123-456-7890"` and `"123.456.7890"` as complete substrings (area code
optional, optional extension suffix `ext`/`x`/`ext.` followed by 2–5
digits), but not the separator-free form `"1234567890"`; for
`"Call me at (555) 123-4567 ext 22"` the full phone-plus-extension
substring is detected and replaced with `XXXXX` by `cleanString` (named
entities: none; exclusion file present and empty). -/
theorem claim_C3_phone_matching :
    getIDInfo (sOf "(123) 456-7890") ["PHONE"] = [sOf "(123) 456-7890"]
    ∧ getIDInfo (sOf "123-456-7890") ["PHONE"] = [sOf "123-456-7890"]
    ∧ getIDInfo (sOf "123.456.7890") ["PHONE"] = [sOf "123.456.7890"]
    ∧ getIDInfo (sOf "Call me at (555) 123-4567 ext 22") ["PHONE"]
        = [sOf "(555) 123-4567 ext 22"]
    ∧ cleanString (sOf "Call me at (555) 123-4567 ext 22") [] (some [])
        = .ok (sOf "Call me at XXXXX") := by
  decide

/-- C5 is right about the intent but the code breaks it: `clean` is not
idempotent.  On `"/a/b"` (no named entities, no identifier matches) the
first pass yields `"XXXXX/XXXXX/b"`, but a second pass re-matches
`/XXXXX/b` in the already-masked output and replaces the leading empty
segment again, yielding `"XXXXXXXXXX/XXXXX/b"`. -/
theorem claim_C5_not_idempotent :
    cleanString (sOf "/a/b") [] (some []) = .ok (sOf "XXXXX/XXXXX/b")
    ∧ cleanString (sOf "XXXXX/XXXXX/b") [] (some []) = .ok (sOf "XXXXXXXXXX/XXXXX/b")
    ∧ sOf "XXXXXXXXXX/XXXXX/b" ≠ sOf "XXXXX/XXXXX/b" := by
  decide

/-- C1: exclusion terms are trimmed and lowercased on load; an entity
whose lowercase form is in the exclusion set is excluded from the PII
set of `getNE` (so the replacement loop of `cleanString` never replaces
it and it survives verbatim, as the concrete run shows), while the
matches of the structured identifier matcher `getIDInfo` take no
exclusion argument and always enter the replacement set. -/
theorem claim_C1_exclusion_respected :
    (∀ (lines : List (List Char)) (t : List Char),
       t ∈ loadExclusions lines ↔ ∃ l ∈ lines, pyLower (pyStrip l) = t)
    ∧ (∀ (chunks : List NEChunk) (piiNE : List String) (lines : List (List Char))
         (e : List Char) (ne : List (List Char)),
         pyLower e ∈ loadExclusions lines →
         getNE chunks piiNE (some lines) = .ok ne → e ∉ ne)
    ∧ (∀ (text : List Char) (types : List String) (m : List Char)
         (ne : List (List Char)),
         m ∈ getIDInfo text types → m ∈ (ne ++ getIDInfo text types).dedup)
    ∧ cleanString (sOf "Paris is big") [⟨"GPE", [sOf "Paris"]⟩] (some [sOf " PARIS "])
        = .ok (sOf "Paris is big") := by
  refine ⟨?_, ?_, ?_, by decide⟩
  · intro lines t
    simp [loadExclusions, List.mem_dedup, List.mem_map]
  · intro chunks piiNE lines e ne hmem hok
    simp only [getNE] at hok
    have hne := Except.ok.inj hok
    intro hin
    rw [← hne] at hin
    rcases (List.mem_filter.mp (List.mem_dedup.mp hin)) with ⟨-, hp⟩
    exact (of_decide_eq_true hp) hmem
  · intro text types m ne hm
    exact List.mem_dedup.mpr (List.mem_append_right _ hm)

/-- Witness for C1: its hypotheses are satisfiable — the excluded entity
`Paris` (exclusion line `" PARIS "`) is absent from the named-entity PII
set, and an SSN match enters the replacement set whatever the exclusions
contain. -/
theorem claim_C1_exclusion_respected_witness :
    (sOf "paris" ∈ loadExclusions [sOf " PARIS "]
       ↔ ∃ l ∈ [sOf " PARIS "], pyLower (pyStrip l) = sOf "paris")
    ∧ sOf "Paris" ∉ ([] : List (List Char))
    ∧ sOf "123-45-6789"
        ∈ ([sOf "paris"] ++ getIDInfo (sOf "123-45-6789") defaultNums).dedup :=
  ⟨claim_C1_exclusion_respected.1 [sOf " PARIS "] (sOf "paris"),
   claim_C1_exclusion_respected.2.1 [⟨"GPE", [sOf "Paris"]⟩] defaultNE [sOf " PARIS "]
     (sOf "Paris") [] (by decide) (by decide),
   claim_C1_exclusion_respected.2.2.1 (sOf "123-45-6789") defaultNums (sOf "123-45-6789")
     [sOf "paris"] (by decide)⟩

/-! ### Matches consume characters (for C8) -/

theorem takeWhile_len_le (p : Char → Bool) : ∀ l : List Char,
    (l.takeWhile p).length ≤ l.length := by
  intro l
  induction l with
  | nil => exact Nat.le_refl _
  | cons c t ih =>
    rw [List.takeWhile]
    split
    · simpa using ih
    · exact Nat.zero_le _

theorem mem_of_headq {α : Type} {l : List α} {a : α} (h : l.head? = some a) : a ∈ l := by
  cases l with
  | nil => cases h
  | cons b t => exact (Option.some.inj h) ▸ List.mem_cons_self b t

/-- Every rest produced by the matcher is no longer than the input. -/
theorem mem_M_length : ∀ (r : RE) (s t : List Char), t ∈ M r s → t.length ≤ s.length := by
  intro r
  induction r with
  | eps =>
    intro s t ht
    simp only [M, List.mem_singleton] at ht
    exact ht ▸ Nat.le_refl _
  | cls f =>
    intro s t ht
    cases s with
    | nil => simp [M] at ht
    | cons c s' =>
      simp only [M] at ht
      split at ht
      · simp only [List.mem_singleton] at ht
        exact ht ▸ Nat.le_succ _
      · simp at ht
  | seq a b iha ihb =>
    intro s t ht
    simp only [M, List.mem_flatMap] at ht
    rcases ht with ⟨u, hu, htu⟩
    exact (ihb u t htu).trans (iha s u hu)
  | alt a b iha ihb =>
    intro s t ht
    rcases List.mem_append.mp ht with h | h
    · exact iha s t h
    · exact ihb s t h
  | opt a iha =>
    intro s t ht
    simp only [M] at ht
    rcases List.mem_append.mp ht with h | h
    · exact iha s t h
    · simp only [List.mem_singleton] at h
      exact h ▸ Nat.le_refl _
  | nla a iha =>
    intro s t ht
    simp only [M] at ht
    split at ht
    · simp only [List.mem_singleton] at ht
      exact ht ▸ Nat.le_refl _
    · simp at ht
  | starCls f =>
    intro s t ht
    simp only [M, List.mem_map, List.mem_reverse, List.mem_range] at ht
    rcases ht with ⟨i, -, hi⟩
    rw [← hi, List.length_drop]
    exact Nat.sub_le _ _
  | repCls f lo hi =>
    intro s t ht
    simp only [M] at ht
    split at ht
    · simp at ht
    · simp only [List.mem_map, List.mem_reverse] at ht
      rcases ht with ⟨i, -, hi⟩
      rw [← hi, List.length_drop]
      exact Nat.sub_le _ _

/-- A strict pattern consumes at least one character. -/
theorem mem_M_strict : ∀ (r : RE), strictB r = true →
    ∀ s t, t ∈ M r s → t.length < s.length := by
  intro r
  induction r with
  | eps => intro h; cases h
  | cls f =>
    intro _ s t ht
    cases s with
    | nil => simp [M] at ht
    | cons c s' =>
      simp only [M] at ht
      split at ht
      · simp only [List.mem_singleton] at ht
        exact ht ▸ Nat.lt_succ_self _
      · simp at ht
  | seq a b iha ihb =>
    intro hs s t ht
    simp only [M, List.mem_flatMap] at ht
    rcases ht with ⟨u, hu, htu⟩
    rcases Bool.or_eq_true_iff.mp (by simpa [strictB] using hs) with h | h
    · exact Nat.lt_of_le_of_lt (mem_M_length b u t htu) (iha h s u hu)
    · exact Nat.lt_of_lt_of_le (ihb h u t htu) (mem_M_length a s u hu)
  | alt a b iha ihb =>
    intro hs s t ht
    rcases Bool.and_eq_true_iff.mp (by simpa [strictB] using hs) with ⟨h1, h2⟩
    rcases List.mem_append.mp ht with h | h
    · exact iha h1 s t h
    · exact ihb h2 s t h
  | opt a iha => intro h; cases h
  | nla a iha => intro h; cases h
  | starCls f => intro h; cases h
  | repCls f lo hi =>
    intro hs s t ht
    have hlo : 0 < lo := of_decide_eq_true (by simpa [strictB] using hs)
    simp only [M] at ht
    split at ht
    · simp at ht
    · rename_i hge
      push_neg at hge
      simp only [List.mem_map, List.mem_reverse] at ht
      rcases ht with ⟨i, hir, hi⟩
      have hilo : lo ≤ i := by
        have := List.mem_range'_1.mp hir
        omega
      have hslen : 0 < s.length :=
        Nat.lt_of_lt_of_le (Nat.lt_of_lt_of_le hlo hge) (takeWhile_len_le _ _)
      rw [← hi, List.length_drop]
      omega

/-- Every string collected by `findall` for a strict pattern is non-empty. -/
theorem findall_mem_ne_nil (r : RE) (hs : strictB r = true) :
    ∀ (fuel : Nat) (s x : List Char), x ∈ findallAux r fuel s → x ≠ [] := by
  intro fuel
  induction fuel with
  | zero => intro s x hx; simp [findallAux] at hx
  | succ f ih =>
    intro s x hx
    cases s with
    | nil => simp [findallAux] at hx
    | cons c s' =>
      cases hm : matchAt r (c :: s') with
      | none =>
        simp only [findallAux, hm] at hx
        exact ih _ _ hx
      | some rest =>
        simp only [findallAux, hm] at hx
        have hrest : rest ∈ M r (c :: s') := mem_of_headq hm
        have hlt : rest.length < (c :: s').length := mem_M_strict r hs _ _ hrest
        have hpos : 0 < (c :: s').length - rest.length := Nat.sub_pos_of_lt hlt
        rw [if_pos hpos] at hx
        rcases List.mem_cons.mp hx with h | h
        · subst h
          intro hnil
          rcases List.take_eq_nil_iff.mp hnil with h0 | h0
          · omega
          · cases h0
        · exact ih _ _ h

/-- A joined entity with at least one word, all words non-empty, is
non-empty. -/
theorem entityOf_ne_nil (st : NEChunk) (hw : st.words ≠ [])
    (hall : ∀ w ∈ st.words, w ≠ []) : entityOf st ≠ [] := by
  unfold entityOf
  cases hws : st.words with
  | nil => exact absurd hws hw
  | cons w ws =>
    cases ws with
    | nil =>
      simp only [joinSpace]
      exact hall w (hws ▸ List.mem_cons_self _ _)
    | cons v vs =>
      simp only [joinSpace]
      intro hcon
      rcases List.append_eq_nil.mp hcon with ⟨-, h2⟩
      cases h2

/-- C8: every string placed in the PII set is non-empty.  The
identifier matches are non-empty unconditionally (all three patterns
must consume at least one character); the named-entity strings are
non-empty under the tokenizer interface invariant that every chunk of
the black-box classifier has at least one leaf and no empty word. -/
theorem claim_C8_pii_strings_nonempty
    (chunks : List NEChunk) (piiNE : List String) (lines : List (List Char))
    (text : List Char) (types : List String)
    (hch : ∀ st ∈ chunks, st.words ≠ [] ∧ ∀ w ∈ st.words, w ≠ []) :
    (∀ ne, getNE chunks piiNE (some lines) = .ok ne → ∀ e ∈ ne, e ≠ [])
    ∧ ∀ m ∈ getIDInfo text types, m ≠ [] := by
  constructor
  · intro ne hok e he
    simp only [getNE] at hok
    rw [← Except.ok.inj hok] at he
    rcases List.mem_filter.mp (List.mem_dedup.mp he) with ⟨he2, -⟩
    rcases List.mem_map.mp he2 with ⟨st, hst, heq⟩
    rcases List.mem_filter.mp hst with ⟨hstc, -⟩
    rcases hch st hstc with ⟨h1, h2⟩
    exact heq ▸ entityOf_ne_nil st h1 h2
  · intro m hm
    simp only [getIDInfo] at hm
    rcases List.mem_flatMap.mp (List.mem_dedup.mp hm) with ⟨kp, hkp, hmf⟩
    have hkp2 := (List.mem_filter.mp hkp).1
    simp only [List.mem_cons, List.not_mem_nil, or_false] at hkp2
    rcases hkp2 with h | h | h <;> subst h <;>
      exact findall_mem_ne_nil _ (by decide) _ _ _ hmf

/-- Witness for C8: the chunk invariant is satisfiable and the theorem
applies at a concrete classifier output and text. -/
theorem claim_C8_pii_strings_nonempty_witness :
    (∀ ne, getNE [⟨"PERSON", [sOf "Alice"]⟩] defaultNE (some []) = .ok ne →
       ∀ e ∈ ne, e ≠ [])
    ∧ ∀ m ∈ getIDInfo (sOf "write to a@b.co now") defaultNums, m ≠ [] :=
  claim_C8_pii_strings_nonempty [⟨"PERSON", [sOf "Alice"]⟩] defaultNE []
    (sOf "write to a@b.co now") defaultNums (by decide)

/-! ### The directory pattern's behaviour (for C10) -/

theorem resubAux_nil (r : RE) (g : List Char → List Char) :
    ∀ f, resubAux r g f [] = [] := by
  intro f
  cases f <;> rfl

theorem resubAux_fuel (r : RE) (g : List Char → List Char) :
    ∀ f1 f2 s, s.length ≤ f1 → s.length ≤ f2 →
      resubAux r g f1 s = resubAux r g f2 s := by
  intro f1
  induction f1 with
  | zero =>
    intro f2 s h1 _
    rw [List.length_eq_zero.mp (Nat.le_zero.mp h1)]
    rw [resubAux_nil, resubAux_nil]
  | succ f ih =>
    intro f2 s h1 h2
    cases s with
    | nil => rw [resubAux_nil, resubAux_nil]
    | cons c s' =>
      cases f2 with
      | zero => simp at h2
      | succ f2' =>
        cases hm : matchAt r (c :: s') with
        | none =>
          simp only [resubAux, hm]
          simp only [List.length_cons] at h1 h2
          rw [ih f2' s' (by omega) (by omega)]
        | some rest =>
          have hrl : rest.length ≤ (c :: s').length :=
            mem_M_length r _ rest (mem_of_headq hm)
          simp only [List.length_cons] at h1 h2 hrl
          simp only [resubAux, hm]
          split
          · rename_i hpos
            simp only [List.length_cons] at hpos
            rw [ih f2' rest (by omega) (by omega)]
          · rw [ih f2' s' (by omega) (by omega)]

/-- Skipping a non-matching head character. -/
theorem resub_cons_of_none (r : RE) (g : List Char → List Char) (c : Char)
    (s : List Char) (h : matchAt r (c :: s) = none) :
    resub r g (c :: s) = c :: resub r g s := by
  simp only [resub, List.length_cons, resubAux, h]

theorem dropWhile_eq_drop_takeWhile_len (p : Char → Bool) :
    ∀ s : List Char, s.drop ((s.takeWhile p).length) = s.dropWhile p := by
  intro s
  induction s with
  | nil => rfl
  | cons c t ih =>
    by_cases h : p c
    · rw [List.takeWhile_cons_of_pos h, List.dropWhile_cons_of_pos h,
        List.length_cons, List.drop_succ_cons]
      exact ih
    · rw [List.takeWhile_cons_of_neg h, List.dropWhile_cons_of_neg h]
      rfl

/-- The first (greedy) success of a star over a class is maximal munch. -/
theorem M_starCls_headq (f : Char → Bool) (s : List Char) :
    (M (.starCls f) s).head? = some (s.dropWhile f) := by
  simp only [M, List.range_succ, List.reverse_append, List.reverse_singleton,
    List.singleton_append, List.map_cons, List.head?_cons]
  rw [dropWhile_eq_drop_takeWhile_len]

theorem takeWhile_app_of_all (p : Char → Bool) :
    ∀ (v w : List Char), (∀ c ∈ v, p c = true) →
      (v ++ w).takeWhile p = v ++ w.takeWhile p := by
  intro v w hv
  induction v with
  | nil => rfl
  | cons c v' ih =>
    rw [List.cons_append, List.takeWhile_cons_of_pos (hv c (List.mem_cons_self _ _)),
      List.cons_append]
    rw [ih (fun d hd => hv d (List.mem_cons_of_mem _ hd))]

theorem dropWhile_app_of_all (p : Char → Bool) :
    ∀ (v w : List Char), (∀ c ∈ v, p c = true) →
      (v ++ w).dropWhile p = w.dropWhile p := by
  intro v w hv
  induction v with
  | nil => rfl
  | cons c v' ih =>
    rw [List.cons_append, List.dropWhile_cons_of_pos (hv c (List.mem_cons_self _ _))]
    exact ih (fun d hd => hv d (List.mem_cons_of_mem _ hd))

theorem takeWhile_of_breaksHere (w : List Char) (hw : breaksHere w) :
    w.takeWhile notBreakB = [] ∧ w.dropWhile notBreakB = w := by
  rcases hw with h | ⟨c, w', hw, hc⟩
  · subst h; exact ⟨rfl, rfl⟩
  · subst hw
    exact ⟨List.takeWhile_cons_of_neg (by simp [hc]),
      List.dropWhile_cons_of_neg (by simp [hc])⟩

theorem M_alt_eq (a b : RE) (s : List Char) : M (.alt a b) s = M a s ++ M b s := rfl

theorem M_seq_eq (a b : RE) (s : List Char) :
    M (.seq a b) s = (M a s).flatMap (fun t => M b t) := rfl

theorem M_cls_cons_eq (f : Char → Bool) (c : Char) (s : List Char) :
    M (.cls f) (c :: s) = if f c then [s] else [] := rfl

theorem M_cls_nil_eq (f : Char → Bool) : M (.cls f) [] = [] := rfl

theorem flatMap_ite_singleton {α β : Type} {P : Prop} [Decidable P] (x : α)
    (g : α → List β) : (if P then [x] else []).flatMap g = if P then g x else [] := by
  split <;> simp

/-- At a `/` followed by a non-empty run of non-break characters, the
directory pattern matches exactly through the end of the run. -/
theorem matchAt_dir_slash (v w : List Char) (hv0 : v ≠ [])
    (hv : ∀ c ∈ v, notBreakB c = true) (hw : breaksHere w) :
    matchAt DIR_RE ('/' :: v ++ w) = some w := by
  rcases v with _ | ⟨a, v'⟩
  · exact absurd rfl hv0
  have ha : notBreakB a = true := hv a (List.mem_cons_self _ _)
  have hv' : ∀ c ∈ v', notBreakB c = true :=
    fun c hc => hv c (List.mem_cons_of_mem _ hc)
  have halpha : isAsciiAlphaB '/' = false := by decide
  simp only [matchAt, DIR_RE, plusCls, List.cons_append, M_alt_eq, M_seq_eq,
    M_cls_cons_eq, flatMap_ite_singleton, halpha]
  simp [ha]
  rw [M_starCls_headq]
  rw [dropWhile_app_of_all notBreakB v' w hv', (takeWhile_of_breaksHere w hw).2]

/-- At a character that is not `/` and does not begin a Windows-style
`X:\...` path start, the directory pattern does not match. -/
theorem matchAt_dir_none (a : Char) (rest : List Char) (ha : ¬a = '/')
    (hwin : ∀ b d t, rest = b :: d :: t → ¬(b = ':' ∧ d = '\\')) :
    matchAt DIR_RE (a :: rest) = none := by
  have hK : M (.seq (.cls (fun c => c = ':'))
      (.seq (.cls (fun c => c = '\\')) (plusCls notBreakB))) rest = [] := by
    cases rest with
    | nil => rfl
    | cons b rest1 =>
      cases rest1 with
      | nil =>
        simp only [M_seq_eq, M_cls_cons_eq]
        split <;> simp [M_cls_nil_eq]
      | cons d t =>
        have hbd := hwin b d t rfl
        by_cases hb : b = ':'
        · by_cases hd : d = '\\'
          · exact absurd ⟨hb, hd⟩ hbd
          · simp [M_seq_eq, M_cls_cons_eq, hb, hd]
        · simp [M_seq_eq, M_cls_cons_eq, hb]
  have h1 : matchAt DIR_RE (a :: rest)
      = ((if isAsciiAlphaB a = true then [rest] else []).flatMap
          (fun t => M (.seq (.cls (fun c => c = ':'))
            (.seq (.cls (fun c => c = '\\')) (plusCls notBreakB))) t)
        ++ (if decide (a = '/') = true then [rest] else []).flatMap
          (fun t => M (plusCls notBreakB) t)).head? := rfl
  rw [h1, flatMap_ite_singleton, flatMap_ite_singleton, hK]
  simp [ha]

/-- `maskDirectories` leaves a non-matching head character alone. -/
theorem maskDirectories_cons_of_none (c : Char) (s : List Char)
    (h : matchAt DIR_RE (c :: s) = none) :
    maskDirectories (c :: s) = c :: maskDirectories s :=
  resub_cons_of_none DIR_RE mask_directory c s h

/-- The scan of `maskDirectories`: text before a path start is copied,
the masked run is replaced, and scanning resumes after the run. -/
theorem maskDirectories_split (u v w : List Char)
    (hu1 : '/' ∉ u) (hu2 : '\\' ∉ u) (hv0 : v ≠ [])
    (hv : ∀ c ∈ v, notBreakB c = true) (hw : breaksHere w) :
    maskDirectories (u ++ '/' :: v ++ w)
      = u ++ mask_directory ('/' :: v) ++ maskDirectories w := by
  induction u with
  | nil =>
    simp only [List.nil_append]
    have hm := matchAt_dir_slash v w hv0 hv hw
    rw [List.cons_append] at hm
    show resub DIR_RE mask_directory (('/' :: v) ++ w) = _
    rw [List.cons_append]
    rw [resub]
    simp only [List.length_cons, resubAux, hm]
    rw [if_pos (show 0 < (v ++ w).length + 1 - w.length by
      simp only [List.length_append]; omega)]
    have hlen : (v ++ w).length + 1 - w.length = ('/' :: v).length := by
      simp only [List.length_append, List.length_cons]
      omega
    rw [hlen, show '/' :: (v ++ w) = ('/' :: v) ++ w from rfl, List.take_left]
    congr 1
    rw [resubAux_fuel DIR_RE mask_directory ((v ++ w).length) w.length w
      (by simp only [List.length_append]; omega) (Nat.le_refl _)]
    rfl
  | cons a u' ih =>
    have ha : ¬a = '/' := fun h => hu1 (h ▸ List.mem_cons_self _ _)
    have hu1' : '/' ∉ u' := fun h => hu1 (List.mem_cons_of_mem _ h)
    have hu2' : '\\' ∉ u' := fun h => hu2 (List.mem_cons_of_mem _ h)
    have hwin : ∀ b d t, (u' ++ ('/' :: v)) ++ w = b :: d :: t →
        ¬(b = ':' ∧ d = '\\') := by
      intro b d t heq
      cases u' with
      | nil =>
        rintro ⟨hb, -⟩
        simp only [List.nil_append, List.cons_append, List.cons.injEq] at heq
        rw [← heq.1] at hb
        exact absurd hb (by decide)
      | cons x u'' =>
        cases u'' with
        | nil =>
          rintro ⟨-, hd⟩
          simp only [List.cons_append, List.nil_append, List.cons.injEq] at heq
          rw [← heq.2.1] at hd
          exact absurd hd (by decide)
        | cons y u''' =>
          rintro ⟨-, hd⟩
          simp only [List.cons_append, List.cons.injEq] at heq
          apply hu2'
          rw [← heq.2.1] at hd
          rw [← hd]
          exact List.mem_cons_of_mem x (List.mem_cons_self y _)
    have hnone := matchAt_dir_none a ((u' ++ ('/' :: v)) ++ w) ha hwin
    show maskDirectories (((a :: u') ++ ('/' :: v)) ++ w) = _
    rw [show ((a :: u') ++ ('/' :: v)) ++ w = a :: ((u' ++ ('/' :: v)) ++ w) from by
      simp]
    rw [maskDirectories_cons_of_none a _ hnone]
    have ih' := ih hu1' hu2'
    rw [show (u' ++ ('/' :: v)) ++ w = u' ++ ('/' :: v) ++ w from by simp] at *
    rw [ih']
    simp

/-- C10: `maskDirectories` over-approximates: whatever precedes a `/`,
the maximal run of non-whitespace characters starting at the first `/`
of a run is treated as a path and masked segment-wise; in particular for
the URL `"http://example.com/page"` everything from the first `/` onward
is masked, leaving only the final segment intact. -/
theorem claim_C10_slash_runs_masked_anywhere :
    (∀ (u v w : List Char), '/' ∉ u → '\\' ∉ u → v ≠ [] →
       (∀ c ∈ v, notBreakB c = true) → breaksHere w →
       maskDirectories (u ++ '/' :: v ++ w)
         = u ++ mask_directory ('/' :: v) ++ maskDirectories w)
    ∧ maskDirectories (sOf "http://example.com/page")
        = sOf "http:XXXXX/XXXXX/XXXXX/page" :=
  ⟨maskDirectories_split, by decide⟩

/-- Witness for C10: the general part applies to the URL input, with
`u = "http:"`, the run `v = "/example.com/page"` and `w = []`. -/
theorem claim_C10_slash_runs_masked_anywhere_witness :
    maskDirectories (sOf "http:" ++ '/' :: sOf "/example.com/page" ++ [])
      = sOf "http:" ++ mask_directory ('/' :: sOf "/example.com/page")
        ++ maskDirectories [] :=
  claim_C10_slash_runs_masked_anywhere.1 (sOf "http:") (sOf "/example.com/page") []
    (by decide) (by decide) (by decide) (by decide) (Or.inl rfl)

/-! ### The SSN pattern (for C4) -/

theorem M_eps_eq (s : List Char) : M .eps s = [s] := rfl

theorem M_lit_core : ∀ (cs s : List Char),
    M (cs.foldr (fun c r => .seq (.cls (fun d => d = c)) r) .eps) s
      = if cs.isPrefixOf s then [s.drop cs.length] else [] := by
  intro cs
  induction cs with
  | nil => intro s; simp [M_eps_eq, List.isPrefixOf]
  | cons c cs' ih =>
    intro s
    cases s with
    | nil => simp [M_seq_eq, M_cls_nil_eq, List.isPrefixOf]
    | cons b s' =>
      simp only [List.foldr_cons, M_seq_eq, M_cls_cons_eq, flatMap_ite_singleton, ih,
        List.isPrefixOf, List.length_cons, List.drop_succ_cons]
      by_cases hbc : b = c
      · simp [hbc]
      · simp [hbc]
        intro h
        exact absurd h.symm hbc

theorem M_lit_eq (str : String) (s : List Char) :
    M (lit str) s = if str.data.isPrefixOf s then [s.drop str.data.length] else [] :=
  M_lit_core str.data s

example (p q w x y z : Char) (hp : isDigitB p = true) (hq : isDigitB q = true)
    (hw : isDigitB w = true) (hx : isDigitB x = true) (hy : isDigitB y = true)
    (hz : isDigitB z = true) :
    M SSN_RE ('6' :: '6' :: '6' :: '-' :: p :: q :: '-' :: w :: x :: y :: z :: []) = [] := by
  simp [SSN_RE, M_seq_eq, M_lit_eq, M_alt_eq, M, List.isPrefixOf]


theorem M_nla_eq (a : RE) (s : List Char) :
    M (.nla a) s = if M a s = [] then [s] else [] := by
  cases h : M a s with
  | nil => simp [M, h]
  | cons u l => simp [M, h]

theorem M_repCls_exact (f : Char → Bool) (n : Nat) (s : List Char)
    (h : n ≤ (s.takeWhile f).length) : M (.repCls f n n) s = [s.drop n] := by
  cases n with
  | zero => simp [M, List.range']
  | succ m =>
    simp only [M]
    rw [if_neg (by omega)]
    rw [Nat.min_eq_left h, show m + 1 - (m + 1) + 1 = 1 from by omega]
    rfl

theorem M_ssn_good (a b c p q w x y z : Char)
    (ha : isDigitB a = true) (hb : isDigitB b = true) (hc : isDigitB c = true)
    (hp : isDigitB p = true) (hq : isDigitB q = true)
    (hw : isDigitB w = true) (hx : isDigitB x = true) (hy : isDigitB y = true)
    (hz : isDigitB z = true)
    (h1 : ¬(a = '6' ∧ b = '6' ∧ c = '6')) (h2 : ¬(a = '0' ∧ b = '0' ∧ c = '0'))
    (h3 : ¬a = '9') (h4 : ¬(p = '0' ∧ q = '0'))
    (h5 : ¬(w = '0' ∧ x = '0' ∧ y = '0' ∧ z = '0')) :
    M SSN_RE (a :: b :: c :: '-' :: p :: q :: '-' :: w :: x :: y :: z :: []) = [[]] := by
  have hdashA : isDigitB '-' = true → False := by decide
  have e1 : M (lit "666") (a :: b :: c :: '-' :: p :: q :: '-' :: w :: x :: y :: z :: []) = [] := by
    rw [M_lit_eq, if_neg]
    simp only [List.isPrefixOf, Bool.and_eq_true, beq_iff_eq]
    rintro ⟨x1, x2, x3, -⟩
    exact h1 ⟨x1.symm, x2.symm, x3.symm⟩
  have e2 : M (lit "000") (a :: b :: c :: '-' :: p :: q :: '-' :: w :: x :: y :: z :: []) = [] := by
    rw [M_lit_eq, if_neg]
    simp only [List.isPrefixOf, Bool.and_eq_true, beq_iff_eq]
    rintro ⟨x1, x2, x3, -⟩
    exact h2 ⟨x1.symm, x2.symm, x3.symm⟩
  have e3 : M (.seq (.cls (fun c => c = '9')) (.seq (.cls isDigitB) (.cls isDigitB)))
      (a :: b :: c :: '-' :: p :: q :: '-' :: w :: x :: y :: z :: []) = [] := by
    rw [M_seq_eq, M_cls_cons_eq, if_neg (by simp [h3])]
    rfl
  have harea : M (.nla (.alt (lit "666") (.alt (lit "000")
      (.seq (.cls (fun c => c = '9')) (.seq (.cls isDigitB) (.cls isDigitB))))))
      (a :: b :: c :: '-' :: p :: q :: '-' :: w :: x :: y :: z :: []) =
      [a :: b :: c :: '-' :: p :: q :: '-' :: w :: x :: y :: z :: []] := by
    rw [M_nla_eq, if_pos]
    rw [M_alt_eq, M_alt_eq, e1, e2, e3]
    rfl
  have ht3 : ((a :: b :: c :: '-' :: p :: q :: '-' :: w :: x :: y :: z :: []).takeWhile
      isDigitB).length = 3 := by
    rw [List.takeWhile_cons_of_pos ha, List.takeWhile_cons_of_pos hb,
      List.takeWhile_cons_of_pos hc, List.takeWhile_cons_of_neg (by decide)]
    rfl
  have e4 : M (dRep 3) (a :: b :: c :: '-' :: p :: q :: '-' :: w :: x :: y :: z :: [])
      = [('-' :: p :: q :: '-' :: w :: x :: y :: z :: [])] := by
    rw [dRep, M_repCls_exact isDigitB 3 _ ht3.ge]
    rfl
  have e5 : M (.nla (lit "00")) (p :: q :: '-' :: w :: x :: y :: z :: [])
      = [(p :: q :: '-' :: w :: x :: y :: z :: [])] := by
    rw [M_nla_eq, if_pos]
    rw [M_lit_eq, if_neg]
    simp only [List.isPrefixOf, Bool.and_eq_true, beq_iff_eq]
    rintro ⟨x1, x2, -⟩
    exact h4 ⟨x1.symm, x2.symm⟩
  have ht2 : ((p :: q :: '-' :: w :: x :: y :: z :: []).takeWhile isDigitB).length = 2 := by
    rw [List.takeWhile_cons_of_pos hp, List.takeWhile_cons_of_pos hq,
      List.takeWhile_cons_of_neg (by decide)]
    rfl
  have e6 : M (dRep 2) (p :: q :: '-' :: w :: x :: y :: z :: [])
      = [('-' :: w :: x :: y :: z :: [])] := by
    rw [dRep, M_repCls_exact isDigitB 2 _ ht2.ge]
    rfl
  have e7 : M (.nla (lit "0000")) (w :: x :: y :: z :: []) = [(w :: x :: y :: z :: [])] := by
    rw [M_nla_eq, if_pos]
    rw [M_lit_eq, if_neg]
    simp only [List.isPrefixOf, Bool.and_eq_true, beq_iff_eq]
    rintro ⟨x1, x2, x3, x4, -⟩
    exact h5 ⟨x1.symm, x2.symm, x3.symm, x4.symm⟩
  have ht4 : ((w :: x :: y :: z :: []).takeWhile isDigitB).length = 4 := by
    rw [List.takeWhile_cons_of_pos hw, List.takeWhile_cons_of_pos hx,
      List.takeWhile_cons_of_pos hy, List.takeWhile_cons_of_pos hz]
    rfl
  have e8 : M (dRep 4) (w :: x :: y :: z :: []) = [([] : List Char)] := by
    rw [dRep, M_repCls_exact isDigitB 4 _ ht4.ge]
    rfl
  show M (.seq _ _) _ = [[]]
  rw [M_seq_eq, harea]
  simp only [List.flatMap_cons, List.flatMap_nil, List.append_nil]
  rw [M_seq_eq, e4]
  simp only [List.flatMap_cons, List.flatMap_nil, List.append_nil]
  rw [M_seq_eq, M_cls_cons_eq, if_pos (by simp)]
  simp only [List.flatMap_cons, List.flatMap_nil, List.append_nil]
  rw [M_seq_eq, e5]
  simp only [List.flatMap_cons, List.flatMap_nil, List.append_nil]
  rw [M_seq_eq, e6]
  simp only [List.flatMap_cons, List.flatMap_nil, List.append_nil]
  rw [M_seq_eq, M_cls_cons_eq, if_pos (by simp)]
  simp only [List.flatMap_cons, List.flatMap_nil, List.append_nil]
  rw [M_seq_eq, e7]
  simp only [List.flatMap_cons, List.flatMap_nil, List.append_nil]
  rw [e8]

theorem M_repCls_fail (f : Char → Bool) (lo hi : Nat) (s : List Char)
    (h : (s.takeWhile f).length < lo) : M (.repCls f lo hi) s = [] := by
  simp [M, if_pos h]

theorem M_ssn_fail_of_d3 (t : List Char) (h : M (dRep 3) t = []) :
    M SSN_RE t = [] := by
  show M (.seq _ _) t = []
  rw [M_seq_eq, M_nla_eq]
  split
  · simp only [List.flatMap_cons, List.flatMap_nil, List.append_nil]
    rw [M_seq_eq, h]
    rfl
  · rfl

theorem M_ssn_fail_pos7 (w x y z : Char)
    (hw : isDigitB w = true) (hx : isDigitB x = true) (hy : isDigitB y = true)
    (hz : isDigitB z = true) : M SSN_RE (w :: x :: y :: z :: []) = [] := by
  have ht : ((w :: x :: y :: z :: []).takeWhile isDigitB).length = 3 + 1 := by
    rw [List.takeWhile_cons_of_pos hw, List.takeWhile_cons_of_pos hx,
      List.takeWhile_cons_of_pos hy, List.takeWhile_cons_of_pos hz]
    rfl
  have hzd : (z = '-') = False := by
    simp only [eq_iff_iff, iff_false]
    intro heq
    rw [heq] at hz
    exact absurd hz (by decide)
  show M (.seq _ _) _ = []
  rw [M_seq_eq, M_nla_eq]
  split
  · simp only [List.flatMap_cons, List.flatMap_nil, List.append_nil]
    rw [M_seq_eq]
    rw [show dRep 3 = .repCls isDigitB 3 3 from rfl]
    rw [show M (.repCls isDigitB 3 3) (w :: x :: y :: z :: []) = [[z]] from by
      rw [M_repCls_exact isDigitB 3 _ (by omega)]
      rfl]
    simp only [List.flatMap_cons, List.flatMap_nil, List.append_nil]
    rw [M_seq_eq, M_cls_cons_eq, if_neg (by simp [hzd])]
    rfl
  · rfl

theorem M_ssn_fail_pos8 (x y z : Char)
    (hx : isDigitB x = true) (hy : isDigitB y = true) (hz : isDigitB z = true) :
    M SSN_RE (x :: y :: z :: []) = [] := by
  have ht : ((x :: y :: z :: []).takeWhile isDigitB).length = 3 := by
    rw [List.takeWhile_cons_of_pos hx, List.takeWhile_cons_of_pos hy,
      List.takeWhile_cons_of_pos hz]
    rfl
  show M (.seq _ _) _ = []
  rw [M_seq_eq, M_nla_eq]
  split
  · simp only [List.flatMap_cons, List.flatMap_nil, List.append_nil]
    rw [M_seq_eq]
    rw [show dRep 3 = .repCls isDigitB 3 3 from rfl]
    rw [M_repCls_exact isDigitB 3 _ ht.ge]
    simp only [List.drop_succ_cons, List.drop_zero, List.drop_nil]
    simp only [List.flatMap_cons, List.flatMap_nil, List.append_nil]
    rw [M_seq_eq, M_cls_nil_eq]
    rfl
  · rfl

theorem M_ssn_bad (a b c p q w x y z : Char)
    (ha : isDigitB a = true) (hb : isDigitB b = true) (hc : isDigitB c = true)
    (hp : isDigitB p = true) (hq : isDigitB q = true)
    (hbad : (a = '6' ∧ b = '6' ∧ c = '6') ∨ (a = '0' ∧ b = '0' ∧ c = '0') ∨ a = '9'
      ∨ (p = '0' ∧ q = '0') ∨ (w = '0' ∧ x = '0' ∧ y = '0' ∧ z = '0')) :
    M SSN_RE (a :: b :: c :: '-' :: p :: q :: '-' :: w :: x :: y :: z :: []) = [] := by
  have ht3 : 3 ≤ ((a :: b :: c :: '-' :: p :: q :: '-' :: w :: x :: y :: z :: []).takeWhile
      isDigitB).length := by
    rw [List.takeWhile_cons_of_pos ha, List.takeWhile_cons_of_pos hb,
      List.takeWhile_cons_of_pos hc, List.takeWhile_cons_of_neg (by decide)]
    simp
  have ht2 : 2 ≤ ((p :: q :: '-' :: w :: x :: y :: z :: []).takeWhile isDigitB).length := by
    rw [List.takeWhile_cons_of_pos hp, List.takeWhile_cons_of_pos hq,
      List.takeWhile_cons_of_neg (by decide)]
    simp
  rcases hbad with h6 | h0 | h9 | hgrp | hser
  · obtain ⟨rfl, rfl, rfl⟩ := h6
    simp [SSN_RE, M_seq_eq, M_lit_eq, M_alt_eq, M, List.isPrefixOf]
  · obtain ⟨rfl, rfl, rfl⟩ := h0
    simp [SSN_RE, M_seq_eq, M_lit_eq, M_alt_eq, M, List.isPrefixOf]
  · subst h9
    simp [SSN_RE, M_seq_eq, M_lit_eq, M_alt_eq, M, List.isPrefixOf, hb, hc]
  · -- group number 00: the lookahead (?!00) fails after the first dash
    show M (.seq _ _) _ = []
    rw [M_seq_eq, M_nla_eq]
    split
    · simp only [List.flatMap_cons, List.flatMap_nil, List.append_nil]
      rw [M_seq_eq, dRep, M_repCls_exact isDigitB 3 _ ht3]
      simp only [List.drop_succ_cons, List.drop_zero, List.flatMap_cons,
        List.flatMap_nil, List.append_nil]
      rw [M_seq_eq, M_cls_cons_eq, if_pos (by simp)]
      simp only [List.flatMap_cons, List.flatMap_nil, List.append_nil]
      rw [M_seq_eq, M_nla_eq, if_neg]
      · rfl
      · obtain ⟨rfl, rfl⟩ := hgrp
        rw [M_lit_eq, if_pos (by simp [List.isPrefixOf])]
        simp
    · rfl
  · -- serial 0000: the lookahead (?!0000) fails after the second dash
    show M (.seq _ _) _ = []
    rw [M_seq_eq, M_nla_eq]
    split
    · simp only [List.flatMap_cons, List.flatMap_nil, List.append_nil]
      rw [M_seq_eq, dRep, M_repCls_exact isDigitB 3 _ ht3]
      simp only [List.drop_succ_cons, List.drop_zero, List.flatMap_cons,
        List.flatMap_nil, List.append_nil]
      rw [M_seq_eq, M_cls_cons_eq, if_pos (by simp)]
      simp only [List.flatMap_cons, List.flatMap_nil, List.append_nil]
      rw [M_seq_eq, M_nla_eq]
      split
      · simp only [List.flatMap_cons, List.flatMap_nil, List.append_nil]
        rw [M_seq_eq, dRep, M_repCls_exact isDigitB 2 _ ht2]
        simp only [List.drop_succ_cons, List.drop_zero, List.flatMap_cons,
          List.flatMap_nil, List.append_nil]
        rw [M_seq_eq, M_cls_cons_eq, if_pos (by simp)]
        simp only [List.flatMap_cons, List.flatMap_nil, List.append_nil]
        rw [M_seq_eq, M_nla_eq, if_neg]
        · rfl
        · obtain ⟨rfl, rfl, rfl, rfl⟩ := hser
          rw [M_lit_eq, if_pos (by simp [List.isPrefixOf])]
          simp
      · rfl
    · rfl

theorem findallAux_step_none (r : RE) (f : Nat) (c : Char) (s : List Char)
    (h : matchAt r (c :: s) = none) :
    findallAux r (f + 1) (c :: s) = findallAux r f s := by
  simp only [findallAux, h]

theorem findallAux_step_some (r : RE) (f : Nat) (c : Char) (s rest : List Char)
    (h : matchAt r (c :: s) = some rest) (hpos : 0 < (c :: s).length - rest.length) :
    findallAux r (f + 1) (c :: s)
      = (c :: s).take ((c :: s).length - rest.length) :: findallAux r f rest := by
  simp only [findallAux, h]
  rw [if_pos hpos]

theorem findall_ssn_eq (a b c p q w x y z : Char)
    (ha : isDigitB a = true) (hb : isDigitB b = true) (hc : isDigitB c = true)
    (hp : isDigitB p = true) (hq : isDigitB q = true)
    (hw : isDigitB w = true) (hx : isDigitB x = true) (hy : isDigitB y = true)
    (hz : isDigitB z = true) :
    findall SSN_RE (a :: b :: c :: '-' :: p :: q :: '-' :: w :: x :: y :: z :: [])
      = if (a = '6' ∧ b = '6' ∧ c = '6') ∨ (a = '0' ∧ b = '0' ∧ c = '0') ∨ a = '9'
          ∨ (p = '0' ∧ q = '0') ∨ (w = '0' ∧ x = '0' ∧ y = '0' ∧ z = '0')
        then []
        else [a :: b :: c :: '-' :: p :: q :: '-' :: w :: x :: y :: z :: []] := by
  have hfail : ∀ t : List Char, (t.takeWhile isDigitB).length < 3 →
      matchAt SSN_RE t = none := by
    intro t h
    rw [matchAt, M_ssn_fail_of_d3 t (M_repCls_fail _ _ _ _ h)]
    rfl
  by_cases hbad : (a = '6' ∧ b = '6' ∧ c = '6') ∨ (a = '0' ∧ b = '0' ∧ c = '0') ∨ a = '9'
      ∨ (p = '0' ∧ q = '0') ∨ (w = '0' ∧ x = '0' ∧ y = '0' ∧ z = '0')
  · rw [if_pos hbad]
    have h0 : matchAt SSN_RE (a :: b :: c :: '-' :: p :: q :: '-' :: w :: x :: y :: z :: [])
        = none := by
      rw [matchAt, M_ssn_bad a b c p q w x y z ha hb hc hp hq hbad]
      rfl
    have h1 := hfail (b :: c :: '-' :: p :: q :: '-' :: w :: x :: y :: z :: []) (by
      rw [List.takeWhile_cons_of_pos hb, List.takeWhile_cons_of_pos hc,
        List.takeWhile_cons_of_neg (by decide)]
      simp)
    have h2 := hfail (c :: '-' :: p :: q :: '-' :: w :: x :: y :: z :: []) (by
      rw [List.takeWhile_cons_of_pos hc, List.takeWhile_cons_of_neg (by decide)]
      simp)
    have h3 := hfail ('-' :: p :: q :: '-' :: w :: x :: y :: z :: []) (by
      rw [List.takeWhile_cons_of_neg (by decide)]
      simp)
    have h4 := hfail (p :: q :: '-' :: w :: x :: y :: z :: []) (by
      rw [List.takeWhile_cons_of_pos hp, List.takeWhile_cons_of_pos hq,
        List.takeWhile_cons_of_neg (by decide)]
      simp)
    have h5 := hfail (q :: '-' :: w :: x :: y :: z :: []) (by
      rw [List.takeWhile_cons_of_pos hq, List.takeWhile_cons_of_neg (by decide)]
      simp)
    have h6 := hfail ('-' :: w :: x :: y :: z :: []) (by
      rw [List.takeWhile_cons_of_neg (by decide)]
      simp)
    have h7 : matchAt SSN_RE (w :: x :: y :: z :: []) = none := by
      rw [matchAt, M_ssn_fail_pos7 w x y z hw hx hy hz]
      rfl
    have h8 : matchAt SSN_RE (x :: y :: z :: []) = none := by
      rw [matchAt, M_ssn_fail_pos8 x y z hx hy hz]
      rfl
    have h9 := hfail (y :: z :: []) (by
      rw [List.takeWhile_cons_of_pos hy, List.takeWhile_cons_of_pos hz]
      simp)
    have h10 := hfail (z :: []) (by
      rw [List.takeWhile_cons_of_pos hz]
      simp)
    show findallAux SSN_RE 11 _ = []
    rw [findallAux_step_none _ _ _ _ h0, findallAux_step_none _ _ _ _ h1,
      findallAux_step_none _ _ _ _ h2, findallAux_step_none _ _ _ _ h3,
      findallAux_step_none _ _ _ _ h4, findallAux_step_none _ _ _ _ h5,
      findallAux_step_none _ _ _ _ h6, findallAux_step_none _ _ _ _ h7,
      findallAux_step_none _ _ _ _ h8, findallAux_step_none _ _ _ _ h9,
      findallAux_step_none _ _ _ _ h10]
    rfl
  · rw [if_neg hbad]
    push_neg at hbad
    obtain ⟨n1, n2, n3, n4, n5⟩ := hbad
    have h0 : matchAt SSN_RE (a :: b :: c :: '-' :: p :: q :: '-' :: w :: x :: y :: z :: [])
        = some [] := by
      rw [matchAt, M_ssn_good a b c p q w x y z ha hb hc hp hq hw hx hy hz
        (by tauto) (by tauto) n3 (by tauto) (by tauto)]
      rfl
    show findallAux SSN_RE 11 _ = _
    rw [findallAux_step_some _ _ _ _ _ h0 (by simp)]
    rw [show findallAux SSN_RE 10 ([] : List Char) = [] from rfl]
    simp only [List.length_nil, Nat.sub_zero, List.take_length]

/-- C4: an `###-##-####` string is matched by the SSN matcher if and
only if its area number is not `666`, not `000` and not `9xx`
(900–999), its group number is not `00`, and its serial is not `0000`;
concretely `123-45-6789` is matched and redacted to `XXXXX` by
`cleanString`, while `666-12-3456` is matched by no category and left
unredacted. -/
theorem claim_C4_ssn_validity (a b c p q w x y z : Char)
    (ha : isDigitB a = true) (hb : isDigitB b = true) (hc : isDigitB c = true)
    (hp : isDigitB p = true) (hq : isDigitB q = true)
    (hw : isDigitB w = true) (hx : isDigitB x = true) (hy : isDigitB y = true)
    (hz : isDigitB z = true) :
    (getIDInfo (a :: b :: c :: '-' :: p :: q :: '-' :: w :: x :: y :: z :: []) ["SSN"]
      = if (a = '6' ∧ b = '6' ∧ c = '6') ∨ (a = '0' ∧ b = '0' ∧ c = '0') ∨ a = '9'
          ∨ (p = '0' ∧ q = '0') ∨ (w = '0' ∧ x = '0' ∧ y = '0' ∧ z = '0')
        then []
        else [a :: b :: c :: '-' :: p :: q :: '-' :: w :: x :: y :: z :: []])
    ∧ getIDInfo (sOf "123-45-6789") ["SSN"] = [sOf "123-45-6789"]
    ∧ getIDInfo (sOf "666-12-3456") ["SSN"] = []
    ∧ cleanString (sOf "123-45-6789") [] (some []) = .ok (sOf "XXXXX")
    ∧ cleanString (sOf "666-12-3456") [] (some []) = .ok (sOf "666-12-3456") := by
  refine ⟨?_, by decide, by decide, by decide, by decide⟩
  have hg : getIDInfo (a :: b :: c :: '-' :: p :: q :: '-' :: w :: x :: y :: z :: []) ["SSN"]
      = (findall SSN_RE (a :: b :: c :: '-' :: p :: q :: '-' :: w :: x :: y :: z :: [])).dedup := by
    simp [getIDInfo]
  rw [hg, findall_ssn_eq a b c p q w x y z ha hb hc hp hq hw hx hy hz]
  split
  · rfl
  · simp

/-- Witness for C4: the characterization applies at the concrete digits
of `123-45-6789` (a valid SSN shape). -/
theorem claim_C4_ssn_validity_witness :
    (getIDInfo ('1' :: '2' :: '3' :: '-' :: '4' :: '5' :: '-' :: '6' :: '7' :: '8' :: '9' :: []) ["SSN"]
      = if ('1' = '6' ∧ '2' = '6' ∧ '3' = '6') ∨ ('1' = '0' ∧ '2' = '0' ∧ '3' = '0') ∨ '1' = '9'
          ∨ ('4' = '0' ∧ '5' = '0') ∨ ('6' = '0' ∧ '7' = '0' ∧ '8' = '0' ∧ '9' = '0')
        then []
        else [('1' :: '2' :: '3' :: '-' :: '4' :: '5' :: '-' :: '6' :: '7' :: '8' :: '9' :: [])])
    ∧ getIDInfo (sOf "123-45-6789") ["SSN"] = [sOf "123-45-6789"]
    ∧ getIDInfo (sOf "666-12-3456") ["SSN"] = []
    ∧ cleanString (sOf "123-45-6789") [] (some []) = .ok (sOf "XXXXX")
    ∧ cleanString (sOf "666-12-3456") [] (some []) = .ok (sOf "666-12-3456") :=
  claim_C4_ssn_validity '1' '2' '3' '4' '5' '6' '7' '8' '9' (by decide) (by decide)
    (by decide) (by decide) (by decide) (by decide) (by decide) (by decide) (by decide)

theorem isPre_iff : ∀ p s : List Char, p.isPrefixOf s = true ↔ ∃ t, p ++ t = s := by
  intro p
  induction p with
  | nil => intro s; simp [List.isPrefixOf]
  | cons a p' ih =>
    intro s
    cases s with
    | nil => simp [List.isPrefixOf]
    | cons b s' =>
      simp only [List.isPrefixOf, Bool.and_eq_true, beq_iff_eq, ih, List.cons_append,
        List.cons.injEq]
      constructor
      · rintro ⟨rfl, t, rfl⟩
        exact ⟨t, rfl, rfl⟩
      · rintro ⟨t, rfl, rfl⟩
        exact ⟨rfl, t, rfl⟩

theorem take_append_left {α : Type} : ∀ (l₁ l₂ : List α) (k : Nat),
    k ≤ l₁.length → (l₁ ++ l₂).take k = l₁.take k := by
  intro l₁
  induction l₁ with
  | nil => intro l₂ k h; simp at h; simp [h]
  | cons a t ih =>
    intro l₂ k h
    cases k with
    | zero => rfl
    | succ m =>
      simp only [List.cons_append, List.take_succ_cons]
      rw [ih l₂ m (by simpa using h)]

theorem drop_append_le {α : Type} : ∀ (l₁ l₂ : List α) (k : Nat),
    k ≤ l₁.length → (l₁ ++ l₂).drop k = l₁.drop k ++ l₂ := by
  intro l₁
  induction l₁ with
  | nil => intro l₂ k h; simp at h; simp [h]
  | cons a t ih =>
    intro l₂ k h
    cases k with
    | zero => rfl
    | succ m =>
      simp only [List.cons_append, List.drop_succ_cons]
      exact ih l₂ m (by simpa using h)

theorem pre_total (p q s : List Char) (hp : p.isPrefixOf s = true)
    (hq : q.isPrefixOf s = true) :
    p.isPrefixOf q = true ∨ q.isPrefixOf p = true := by
  rcases isPre_iff p s |>.mp hp with ⟨u, hu⟩
  rcases isPre_iff q s |>.mp hq with ⟨v, hv⟩
  rcases Nat.le_total p.length q.length with hle | hle
  · left
    rw [isPre_iff]
    refine ⟨q.drop p.length, ?_⟩
    have h1 : (p ++ u).take p.length = p := by
      rw [take_append_left p u _ (Nat.le_refl _), List.take_length]
    have h2 : (q ++ v).take p.length = q.take p.length := take_append_left q v _ hle
    rw [hv, ← hu, h1] at h2
    have h3 := List.take_append_drop p.length q
    rw [← h2] at h3
    exact h3
  · right
    rw [isPre_iff]
    refine ⟨p.drop q.length, ?_⟩
    have h1 : (q ++ v).take q.length = q := by
      rw [take_append_left q v _ (Nat.le_refl _), List.take_length]
    have h2 : (p ++ u).take q.length = p.take q.length := take_append_left p u _ hle
    rw [hu, ← hv, h1] at h2
    have h3 := List.take_append_drop q.length p
    rw [← h2] at h3
    exact h3

/-- If `q` matches inside a proper tail of an occurrence of `p`, the two
strings clash at that offset. -/
theorem clash_of_overlap (p q s : List Char) (i : Nat)
    (hps : p.isPrefixOf s = true) (hi : 0 < i) (hip : i < p.length)
    (hqs : q.isPrefixOf (s.drop i) = true) :
    (p.drop i).isPrefixOf q = true ∨ q.isPrefixOf (p.drop i) = true := by
  rcases isPre_iff p s |>.mp hps with ⟨u, hu⟩
  have hdrop : s.drop i = p.drop i ++ u := by
    rw [← hu, drop_append_le p u i (Nat.le_of_lt hip)]
  rw [hdrop] at hqs
  exact (pre_total q (p.drop i) (p.drop i ++ u) hqs (by
    rw [isPre_iff]; exact ⟨u, rfl⟩)).symm.imp id id

theorem replaceGo_nil (pat rep : List Char) : ∀ f, replaceGo pat rep f [] = [] := by
  intro f
  cases f <;> rfl

theorem replaceGo_fuel (pat rep : List Char) : ∀ f1 f2 s, s.length ≤ f1 →
    s.length ≤ f2 → replaceGo pat rep f1 s = replaceGo pat rep f2 s := by
  intro f1
  induction f1 with
  | zero =>
    intro f2 s h1 _
    rw [List.length_eq_zero.mp (Nat.le_zero.mp h1)]
    rw [replaceGo_nil, replaceGo_nil]
  | succ f ih =>
    intro f2 s h1 h2
    cases s with
    | nil => rw [replaceGo_nil, replaceGo_nil]
    | cons c s' =>
      cases f2 with
      | zero => simp at h2
      | succ f2' =>
        simp only [List.length_cons] at h1 h2
        simp only [replaceGo]
        split
        · rw [ih f2' (s'.drop (pat.length - 1)) (by
            have := List.length_drop (pat.length - 1) s'
            omega) (by
            have := List.length_drop (pat.length - 1) s'
            omega)]
        · rw [ih f2' s' (by omega) (by omega)]

theorem replaceAll_nil (pat rep : List Char) (hp : pat ≠ []) :
    replaceAll [] pat rep = [] := by
  rw [replaceAll, if_neg (by simpa using hp)]
  rfl

theorem replaceAll_cons (pat rep : List Char) (hp : pat ≠ []) (c : Char) (s : List Char) :
    replaceAll (c :: s) pat rep
      = if pat.isPrefixOf (c :: s) = true then
          rep ++ replaceAll (s.drop (pat.length - 1)) pat rep
        else c :: replaceAll s pat rep := by
  have hne : pat.isEmpty = false := by simpa using hp
  rw [replaceAll, if_neg (by simp [hne]), List.length_cons]
  simp only [replaceGo]
  split
  · rw [replaceAll, if_neg (by simp [hne])]
    rw [replaceGo_fuel pat rep s.length (s.drop (pat.length - 1)).length _
      (by have := List.length_drop (pat.length - 1) s; omega) (Nat.le_refl _)]
  · rw [replaceAll, if_neg (by simp [hne])]

theorem replaceAll_cons_neg (pat rep : List Char) (hp : pat ≠ []) (c : Char)
    (s : List Char) (h : pat.isPrefixOf (c :: s) = false) :
    replaceAll (c :: s) pat rep = c :: replaceAll s pat rep := by
  rw [replaceAll_cons pat rep hp c s, if_neg (by simp [h])]

theorem pre_X_false (q : List Char) (hq : q ≠ []) (hqx : 'X' ∉ q) (t : List Char) :
    q.isPrefixOf ('X' :: t) = false := by
  cases q with
  | nil => exact absurd rfl hq
  | cons a q' =>
    have ha : ¬a = 'X' := fun h => hqx (h ▸ List.mem_cons_self _ _)
    have hb : (a == 'X') = false := by simpa using ha
    simp [List.isPrefixOf, hb]

theorem replaceAll_placeholder_append (q : List Char) (hq : q ≠ []) (hqx : 'X' ∉ q)
    (t : List Char) : replaceAll (placeholder ++ t) q placeholder
      = placeholder ++ replaceAll t q placeholder := by
  have h1 := pre_X_false q hq hqx
  show replaceAll ('X' :: 'X' :: 'X' :: 'X' :: 'X' :: t) q placeholder = _
  rw [replaceAll_cons_neg q placeholder hq _ _ (h1 _),
    replaceAll_cons_neg q placeholder hq _ _ (h1 _),
    replaceAll_cons_neg q placeholder hq _ _ (h1 _),
    replaceAll_cons_neg q placeholder hq _ _ (h1 _),
    replaceAll_cons_neg q placeholder hq _ _ (h1 _)]
  rfl

/-- If `q` contains no placeholder character and matches the head of the
replaced string, it already matched the head before replacement. -/
theorem pre_of_pre_replaceAll (p : List Char) (hp : p ≠ []) :
    ∀ (n : Nat) (t q : List Char), t.length ≤ n → 'X' ∉ q →
      q.isPrefixOf (replaceAll t p placeholder) = true → q.isPrefixOf t = true := by
  intro n
  induction n with
  | zero =>
    intro t q h1 _ h2
    rw [List.length_eq_zero.mp (Nat.le_zero.mp h1)] at h2 ⊢
    rwa [replaceAll_nil p placeholder hp] at h2
  | succ n ih =>
    intro t q h1 hqx h2
    cases t with
    | nil => rwa [replaceAll_nil p placeholder hp] at h2
    | cons c t' =>
      cases q with
      | nil => rfl
      | cons a q' =>
        by_cases hpre : p.isPrefixOf (c :: t') = true
        · rw [replaceAll_cons p placeholder hp, if_pos hpre] at h2
          rw [show placeholder ++ replaceAll (t'.drop (p.length - 1)) p placeholder
              = 'X' :: ('X' :: 'X' :: 'X' :: 'X'
                :: replaceAll (t'.drop (p.length - 1)) p placeholder) from rfl] at h2
          rw [pre_X_false (a :: q') (by simp) hqx] at h2
          cases h2
        · rw [replaceAll_cons p placeholder hp,
            if_neg (by simp [hpre])] at h2
          simp only [List.isPrefixOf, Bool.and_eq_true] at h2 ⊢
          refine ⟨h2.1, ?_⟩
          exact ih t' q' (by simpa using h1)
            (fun h => hqx (List.mem_cons_of_mem _ h)) h2.2

/-- If `q` matches nowhere in the first `n` positions, replacement
copies that region unchanged. -/
theorem replaceAll_skip_region (q : List Char) (hq : q ≠ []) :
    ∀ (n : Nat) (s : List Char), n ≤ s.length →
      (∀ i, i < n → q.isPrefixOf (s.drop i) = false) →
      replaceAll s q placeholder = s.take n ++ replaceAll (s.drop n) q placeholder := by
  intro n
  induction n with
  | zero => intro s _ _; rfl
  | succ n ih =>
    intro s hn hno
    cases s with
    | nil => simp at hn
    | cons c s' =>
      have h0 : q.isPrefixOf (c :: s') = false := by
        have := hno 0 (Nat.succ_pos _)
        simpa using this
      rw [replaceAll_cons_neg q placeholder hq c s' h0]
      rw [ih s' (by simpa using hn) (fun i hi => by
        have := hno (i + 1) (by omega)
        simpa using this)]
      rfl

/-- One direction of the commutation: `p` matches at the head and `q`
does not. -/
theorem comm_key (p q : List Char) (hp : p ≠ []) (hq : q ≠ [])
    (hxp : 'X' ∉ p) (hxq : 'X' ∉ q)
    (hcpq : noClash p q) (s : List Char)
    (IH : ∀ u, u.length < s.length →
      replaceAll (replaceAll u p placeholder) q placeholder
        = replaceAll (replaceAll u q placeholder) p placeholder)
    (hps : p.isPrefixOf s = true) (hqs : q.isPrefixOf s = false) :
    replaceAll (replaceAll s p placeholder) q placeholder
      = replaceAll (replaceAll s q placeholder) p placeholder := by
  rcases isPre_iff p s |>.mp hps with ⟨u, hu⟩
  rcases p with _ | ⟨pc, p'⟩
  · exact absurd rfl hp
  have hs : s = pc :: (p' ++ u) := by rw [← hu]; rfl
  have hdropu : (p' ++ u).drop ((pc :: p').length - 1) = u := by
    simp only [List.length_cons, Nat.add_sub_cancel]
    exact List.drop_left p' u
  have hlt : u.length < s.length := by
    rw [hs]
    simp only [List.length_cons, List.length_append]
    omega
  -- the p-pass at the head
  have e1 : replaceAll s (pc :: p') placeholder
      = placeholder ++ replaceAll u (pc :: p') placeholder := by
    rw [hs, replaceAll_cons (pc :: p') placeholder hp, if_pos (hs ▸ hps), hdropu]
  -- the q-pass skips the first |p| characters
  have e2 : replaceAll s q placeholder
      = (pc :: p') ++ replaceAll u q placeholder := by
    have hskip := replaceAll_skip_region q hq (pc :: p').length s
      (by rw [hs]; simp [List.length_append])
      (by
        intro i hi
        rcases Nat.eq_zero_or_pos i with rfl | hipos
        · simpa using hqs
        · by_contra hcon
          have htrue : q.isPrefixOf (s.drop i) = true := by
            cases h : q.isPrefixOf (s.drop i)
            · exact absurd h hcon
            · rfl
          have := clash_of_overlap (pc :: p') q s i hps hipos hi htrue
          rcases this with h | h
          · rw [(hcpq i hi hipos).1] at h
            cases h
          · rw [(hcpq i hi hipos).2] at h
            cases h)
    rw [hskip]
    congr 1
    · rw [hs]
      rw [show pc :: (p' ++ u) = (pc :: p') ++ u from rfl, take_append_left _ _ _ (Nat.le_refl _),
        List.take_length]
    · rw [hs]
      rw [show pc :: (p' ++ u) = (pc :: p') ++ u from rfl, List.drop_left]
  -- assemble
  rw [e1, e2]
  rw [replaceAll_placeholder_append q hq hxq]
  have e3 : replaceAll ((pc :: p') ++ replaceAll u q placeholder) (pc :: p') placeholder
      = placeholder ++ replaceAll (replaceAll u q placeholder) (pc :: p') placeholder := by
    rw [show (pc :: p') ++ replaceAll u q placeholder
        = pc :: (p' ++ replaceAll u q placeholder) from rfl]
    rw [replaceAll_cons (pc :: p') placeholder hp, if_pos (by
      rw [isPre_iff]
      exact ⟨replaceAll u q placeholder, rfl⟩)]
    simp only [List.length_cons, Nat.add_sub_cancel]
    rw [List.drop_left p' (replaceAll u q placeholder)]
  rw [e3]
  rw [IH u hlt]

/-- Two replacement patterns commute when both are non-empty, neither
contains the placeholder character, neither is a prefix of the other,
and neither can occur overlapping the other. -/
theorem replaceAll_comm (p q : List Char) (hp : p ≠ []) (hq : q ≠ [])
    (hxp : 'X' ∉ p) (hxq : 'X' ∉ q)
    (hpq : p.isPrefixOf q = false) (hqp : q.isPrefixOf p = false)
    (hcpq : noClash p q) (hcqp : noClash q p) (s : List Char) :
    replaceAll (replaceAll s p placeholder) q placeholder
      = replaceAll (replaceAll s q placeholder) p placeholder := by
  have H : ∀ (n : Nat) (s : List Char), s.length ≤ n →
      replaceAll (replaceAll s p placeholder) q placeholder
        = replaceAll (replaceAll s q placeholder) p placeholder := by
    intro n
    induction n with
    | zero =>
      intro s hs
      rw [List.length_eq_zero.mp (Nat.le_zero.mp hs)]
      simp only [replaceAll_nil p placeholder hp, replaceAll_nil q placeholder hq]
    | succ n ih =>
      intro s hs
      cases s with
      | nil =>
        simp only [replaceAll_nil p placeholder hp, replaceAll_nil q placeholder hq]
      | cons c s' =>
        simp only [List.length_cons] at hs
        by_cases hps : p.isPrefixOf (c :: s') = true
        · by_cases hqs : q.isPrefixOf (c :: s') = true
          · rcases pre_total p q (c :: s') hps hqs with h | h
            · rw [hpq] at h
              cases h
            · rw [hqp] at h
              cases h
          · exact comm_key p q hp hq hxp hxq hcpq (c :: s')
              (fun u hu => ih u (by simp only [List.length_cons] at hu; omega)) hps
              (Bool.eq_false_iff.mpr hqs)
        · by_cases hqs : q.isPrefixOf (c :: s') = true
          · exact (comm_key q p hq hp hxq hxp hcqp (c :: s')
              (fun u hu => (ih u (by simp only [List.length_cons] at hu; omega)).symm)
              hqs (Bool.eq_false_iff.mpr hps)).symm
          · have hps' : p.isPrefixOf (c :: s') = false := Bool.eq_false_iff.mpr hps
            have hqs' : q.isPrefixOf (c :: s') = false := Bool.eq_false_iff.mpr hqs
            have hq1 : q.isPrefixOf (c :: replaceAll s' p placeholder) = false := by
              cases h : q.isPrefixOf (c :: replaceAll s' p placeholder)
              · rfl
              · exfalso
                have h2 : q.isPrefixOf (replaceAll (c :: s') p placeholder) = true := by
                  rw [replaceAll_cons_neg p placeholder hp c s' hps']
                  exact h
                have h3 := pre_of_pre_replaceAll p hp (c :: s').length (c :: s') q
                  (Nat.le_refl _) hxq h2
                rw [hqs'] at h3
                cases h3
            have hp1 : p.isPrefixOf (c :: replaceAll s' q placeholder) = false := by
              cases h : p.isPrefixOf (c :: replaceAll s' q placeholder)
              · rfl
              · exfalso
                have h2 : p.isPrefixOf (replaceAll (c :: s') q placeholder) = true := by
                  rw [replaceAll_cons_neg q placeholder hq c s' hqs']
                  exact h
                have h3 := pre_of_pre_replaceAll q hq (c :: s').length (c :: s') p
                  (Nat.le_refl _) hxp h2
                rw [hps'] at h3
                cases h3
            rw [replaceAll_cons_neg p placeholder hp c s' hps',
              replaceAll_cons_neg q placeholder hq c _ hq1,
              replaceAll_cons_neg q placeholder hq c s' hqs',
              replaceAll_cons_neg p placeholder hp c _ hp1,
              ih s' (by omega)]
  exact H s.length s (Nat.le_refl _)

/-- C6 as stated is false: for the text `"aba"` and the set
`{"ab", "ba"}`, in which neither element is a substring of the other,
the two iteration orders give different results (`"XXXXXa"` versus
`"aXXXXX"`): substring-freedom alone does not make the replacement loop
order-independent, because occurrences may overlap. -/
theorem counterexample_C6_substring_freedom_insufficient :
    occursIn (sOf "ab") (sOf "ba") = false
    ∧ occursIn (sOf "ba") (sOf "ab") = false
    ∧ sOf "ab" ≠ sOf "ba"
    ∧ List.Perm [sOf "ab", sOf "ba"] [sOf "ba", sOf "ab"]
    ∧ replacePII (sOf "aba") [sOf "ab", sOf "ba"]
        ≠ replacePII (sOf "aba") [sOf "ba", sOf "ab"] := by
  decide

/-- C6 (amended): the replacement step of `cleanString` is
order-independent for a set of matches provided the elements are
non-empty, contain no placeholder character, are pairwise not prefixes
of one another, and can never overlap one another (no clash at any
offset) — conditions that strengthen the claim's substring-freedom
hypothesis just enough to rule out the overlap counterexample. -/
theorem claim_C6_replacement_order_independent (text : List Char)
    (l₁ l₂ : List (List Char)) (hperm : l₁.Perm l₂)
    (helems : ∀ x ∈ l₁, x ≠ [] ∧ 'X' ∉ x)
    (hpair : ∀ x ∈ l₁, ∀ y ∈ l₁, x ≠ y → x.isPrefixOf y = false ∧ noClash x y) :
    replacePII text l₁ = replacePII text l₂ := by
  refine List.Perm.foldl_eq' hperm ?_ text
  intro x hx y hy z
  by_cases hxy : x = y
  · rw [hxy]
  · exact replaceAll_comm x y (helems x hx).1 (helems y hy).1 (helems x hx).2
      (helems y hy).2 (hpair x hx y hy hxy).1 (hpair y hy x hx (Ne.symm hxy)).1
      (hpair x hx y hy hxy).2 (hpair y hy x hx (Ne.symm hxy)).2 z

/-- Witness for C6: the amended hypotheses are satisfiable — the set
`{"ab", "cd"}` on the text `"abxcd"` gives the same result in both
orders. -/
theorem claim_C6_replacement_order_independent_witness :
    replacePII (sOf "abxcd") [sOf "ab", sOf "cd"]
      = replacePII (sOf "abxcd") [sOf "cd", sOf "ab"] :=
  claim_C6_replacement_order_independent (sOf "abxcd")
    [sOf "ab", sOf "cd"] [sOf "cd", sOf "ab"] (by decide) (by decide) (by decide)
